import Mathlib

/-!
Verification of the portainer-stack-deploy action core logic.

The definitions below are a shallow embedding of `src/deployStack.ts`,
`src/api.ts` and the entry point (`run`).  Strings are modelled as Lean
`String` (a wrapper around `List Char`); JavaScript string operations
(`trim`, `split`, `substring`, `indexOf`, `parseInt`, regex replace) are
translated with their exact JavaScript semantics, including clamping of
negative indices and the multiline/global regex-replace scan used by
`generateNewStackDefinition`.  The stateful `deployStack` function is
modelled as a pure function from its arguments and an oracle of remote
API outcomes to the list of API calls it issues plus its final outcome.
-/

namespace PortainerDeploy

/-- JavaScript whitespace (the `\s` class and what `String.trim` strips):
space, tab, LF, VT, FF, CR, NBSP and the Unicode space separators,
line/paragraph separators and BOM. -/
def jsWhitespaceChar (c : Char) : Bool :=
  c = ' ' || c = '\t' || c = '\n' || c = '\r' ||
  c = Char.ofNat 11 || c = Char.ofNat 12 || c = Char.ofNat 160 ||
  c = Char.ofNat 5760 || (8192 ≤ c.toNat && c.toNat ≤ 8202) ||
  c = Char.ofNat 8232 || c = Char.ofNat 8233 || c = Char.ofNat 8239 ||
  c = Char.ofNat 8287 || c = Char.ofNat 12288 || c = Char.ofNat 65279

/-- JavaScript line terminators, after which a multiline `^` matches. -/
def isLineTerminator (c : Char) : Bool :=
  c = '\n' || c = '\r' || c = Char.ofNat 8232 || c = Char.ofNat 8233

/-- The two quote characters of the character class `['"]`. -/
def quoteChar (c : Char) : Bool :=
  c = '"' || c = Char.ofNat 39

/-- JavaScript `String.prototype.trim` on a character list. -/
def jsTrimList (s : List Char) : List Char :=
  ((s.dropWhile jsWhitespaceChar).reverse.dropWhile jsWhitespaceChar).reverse

/-- `a.startsWith b` on character lists (used to model literal regex parts). -/
def listStartsWith : List Char → List Char → Bool
  | _, [] => true
  | [], _ :: _ => false
  | c :: cs, d :: ds => c == d && listStartsWith cs ds

/-- JavaScript `String.prototype.split` with a single-character separator. -/
def splitOnChar (sep : Char) : List Char → List (List Char)
  | [] => [[]]
  | c :: rest =>
    let r := splitOnChar sep rest
    if c = sep then [] :: r
    else
      match r with
      | h :: t => (c :: h) :: t
      | [] => [[c]]

/-- JavaScript `Array.prototype.join` with a single-character separator. -/
def joinSep (sep : Char) : List (List Char) → List Char
  | [] => []
  | [x] => x
  | x :: y :: t => x ++ sep :: joinSep sep (y :: t)

/-- `envVariables.replace(/\\n/g, '\n')`: each two-character sequence
backslash-`n` is replaced by a real newline, scanning left to right. -/
def replaceEscapedNewlines : List Char → List Char
  | [] => []
  | [c] => [c]
  | c :: d :: rest2 =>
    if c = '\\' && d = 'n' then '\n' :: replaceEscapedNewlines rest2
    else c :: replaceEscapedNewlines (d :: rest2)

/-- One entry of the `EnvVariables` array type of `api.ts`. -/
structure EnvVariable where
  name : String
  value : String
deriving DecidableEq, Repr

/-- `EnvVariables` from `api.ts`. -/
abbrev EnvVariables := List EnvVariable

/-- The per-line body of `parseEnvVariables`:
`const [name, ...rest] = line.split('='); value = rest.join('=').trim()`. -/
def parseEnvLine (line : List Char) : EnvVariable :=
  let parts := splitOnChar '=' line
  let name := parts.headD []
  let value := joinSep '=' parts.tail
  ⟨⟨jsTrimList name⟩, ⟨jsTrimList value⟩⟩

/-- `parseEnvVariables` from `deployStack.ts`. -/
def parseEnvVariables (envVariables : String) : EnvVariables :=
  let normalized := jsTrimList (replaceEscapedNewlines envVariables.toList)
  ((splitOnChar '\n' normalized).filter (fun line => jsTrimList line ≠ [])).map
    parseEnvLine

/-- JavaScript `Map.prototype.set`: overwrite the value in place if the key
is present (keeping its position), otherwise append the new entry. -/
def mapSet (m : EnvVariables) (k v : String) : EnvVariables :=
  if m.any (fun p => p.name == k) then
    m.map (fun p => if p.name == k then ⟨k, v⟩ else p)
  else m ++ [⟨k, v⟩]

/-- `mergeEnvVariables` from `deployStack.ts`: seed an insertion-ordered
map from `original`, apply `updates`, read the entries back in order. -/
def mergeEnvVariables (original updates : EnvVariables) : EnvVariables :=
  let seeded := original.foldl (fun m v => mapSet m v.name v.value) []
  updates.foldl (fun m v => mapSet m v.name v.value) seeded

/-! ## The image rewrite of `generateNewStackDefinition`

The source builds the regular expression
`^(\s*image:\s*['"]?)REPO(:[^'"]*)?(['"]?)` with flags `gm` (REPO is the
escaped `imageWithoutTag`) and replaces every match with `$1IMAGE$3`.
The matcher below implements exactly this pattern: a line-anchored match,
greedy whitespace runs with backtracking, an optional opening quote, the
literal repository text, an optional greedy `:'-to-quote` tag part (whose
character class also matches newlines, as in JavaScript) and an optional
closing quote.  Escaping the repository for literal use inside the regex
is the identity at this level because REPO is matched literally. -/

/-- The literal `image:` fragment of the rewrite pattern. -/
def imageLit : List Char := ['i', 'm', 'a', 'g', 'e', ':']

/-- Try candidates `k, k-1, …, 0`, returning the first success: the
backtracking order of a greedy `\s*`. -/
def tryFrom (f : Nat → Option α) : Nat → Option α
  | 0 => f 0
  | k + 1 =>
    match f (k + 1) with
    | some r => some r
    | none => tryFrom f k

/-- Length of the maximal `\s` run at the front of `s`. -/
def wsRunLen (s : List Char) : Nat := (s.takeWhile jsWhitespaceChar).length

/-- Match `['"]?REPO` at the front of `u` (quote candidate first, as the
optional group is greedy); returns the consumed quote part on success. -/
def quoteAndRepo (repo : List Char) (u : List Char) : Option (List Char) :=
  match u with
  | c :: rest =>
    if quoteChar c && listStartsWith rest repo then some [c]
    else if listStartsWith u repo then some [] else none
  | [] => if listStartsWith [] repo then some [] else none

/-- Match `\s*['"]?REPO` at the front of `t`: greedy whitespace with
backtracking, then `quoteAndRepo`.  Returns the consumed
`\s*['"]?` text and the remainder after REPO. -/
def wsQuoteRepo (repo : List Char) (t : List Char) : Option (List Char × List Char) :=
  tryFrom
    (fun k =>
      match quoteAndRepo repo (t.drop k) with
      | some q => some (t.take k ++ q, (t.drop k).drop (q.length + repo.length))
      | none => none)
    (wsRunLen t)

/-- Match the trailing `(:[^'"]*)?(['"]?)` groups at the front of `v`,
returning (group 2, group 3).  Both groups are greedy and nothing
follows them, so they are deterministic. -/
def tagAndQuote (v : List Char) : List Char × List Char :=
  let g2 : List Char :=
    match v with
    | c :: rest => if c = ':' then ':' :: rest.takeWhile (fun d => !quoteChar d) else []
    | [] => []
  let u := v.drop g2.length
  let g3 : List Char :=
    match u with
    | c :: _ => if quoteChar c then [c] else []
    | [] => []
  (g2, g3)

/-- Match the whole pattern `(\s*image:\s*['"]?)REPO(:[^'"]*)?(['"]?)` at
the front of `s` (the `^` anchor is checked by the caller).  Returns
(group 1, group 2, group 3) of the leftmost-greedy match. -/
def matchAt (repo : List Char) (s : List Char) : Option (List Char × List Char × List Char) :=
  tryFrom
    (fun k =>
      if listStartsWith (s.drop k) imageLit then
        let t := (s.drop k).drop imageLit.length
        match wsQuoteRepo repo t with
        | some (g1b, v) =>
          let g2g3 := tagAndQuote v
          some (s.take k ++ imageLit ++ g1b, g2g3.1, g2g3.2)
        | none => none
      else none)
    (wsRunLen s)

/-- One global multiline replace pass:
`stackDefinition.replace(regex, prefix + image + suffix)`.  `lineStart`
records whether the current position is preceded by a line terminator
(or is the start of the string), i.e. whether `^` holds there.  `fuel`
bounds the recursion; every step consumes at least one character, so any
`fuel ≥ s.length` computes the full replacement. -/
def scanRewriteFuel (repo image : List Char) : Nat → List Char → Bool → List Char
  | 0, s, _ => s
  | _ + 1, [], _ => []
  | fuel + 1, c :: rest, lineStart =>
    if lineStart then
      match matchAt repo (c :: rest) with
      | some (g1, g2, g3) =>
        let consumed := g1.length + repo.length + g2.length + g3.length
        if consumed = 0 then
          c :: scanRewriteFuel repo image fuel rest (isLineTerminator c)
        else
          let matched := (c :: rest).take consumed
          g1 ++ image ++ g3 ++
            scanRewriteFuel repo image fuel ((c :: rest).drop consumed)
              (matched.getLast?.any isLineTerminator)
      | none => c :: scanRewriteFuel repo image fuel rest (isLineTerminator c)
    else c :: scanRewriteFuel repo image fuel rest (isLineTerminator c)

/-- The replace applied to a whole document (fuel instantiated). -/
def scanRewrite (repo image : List Char) (s : List Char) (lineStart : Bool) : List Char :=
  scanRewriteFuel repo image s.length s lineStart

/-- JavaScript `indexOf(':')`: the index of the first `:` or `-1`. -/
def jsIndexOfColon (s : List Char) : Int :=
  match s.findIdx? (fun c => c = ':') with
  | some n => (n : Int)
  | none => -1

/-- JavaScript `String.prototype.substring`: negative or out-of-range
arguments are clamped to `[0, length]` and swapped when out of order. -/
def jsSubstring (s : List Char) (a b : Int) : List Char :=
  let n : Int := (s.length : Int)
  let a2 : Nat := (max 0 (min a n)).toNat
  let b2 : Nat := (max 0 (min b n)).toNat
  (s.take (max a2 b2)).drop (min a2 b2)

/-- `const imageWithoutTag = image.substring(0, image.indexOf(':'))`. -/
def imageWithoutTag (image : String) : String :=
  ⟨jsSubstring image.toList 0 (jsIndexOfColon image.toList)⟩

/-- The image-rewrite step of `generateNewStackDefinition` (lines 89-95):
build the pattern from `imageWithoutTag` and replace every multiline
match with `$1image$3`. -/
def applyImageRewrite (stackDefinition : String) (image : String) : String :=
  ⟨scanRewrite (imageWithoutTag image).toList image.toList stackDefinition.toList true⟩

/-- JavaScript truthiness of an optional string: `undefined` and `""`
are falsy. -/
def strTruthy : Option String → Bool
  | none => false
  | some s => s ≠ ""

/-- `generateNewStackDefinition` from the point where the stack
definition text has been read and template-rendered (the file read and
Handlebars are external collaborators): `if (!image) return
stackDefinition` else apply the image rewrite. -/
def generateNewStackDefinition (stackDefinition : String) (image : Option String) : String :=
  if strTruthy image then applyImageRewrite stackDefinition (image.getD "")
  else stackDefinition

/-! ## `parseInt(endpointId) || 1` from the entry point `run` -/

/-- Decimal digit test. -/
def isDecDigit (c : Char) : Bool := '0' ≤ c && c ≤ '9'

/-- Hexadecimal digit test. -/
def isHexDigit (c : Char) : Bool :=
  isDecDigit c || ('a' ≤ c && c ≤ 'f') || ('A' ≤ c && c ≤ 'F')

/-- Value of a (decimal or hexadecimal) digit. -/
def digitVal (c : Char) : Nat :=
  if isDecDigit c then c.toNat - 48
  else if 'a' ≤ c && c ≤ 'f' then c.toNat - 87
  else if 'A' ≤ c && c ≤ 'F' then c.toNat - 55
  else 0

/-- Parse the longest digit prefix in the given base; `none` if empty. -/
def parseDigits (isD : Char → Bool) (base : Nat) (l : List Char) : Option Nat :=
  let ds := l.takeWhile isD
  if ds = [] then none
  else some (ds.foldl (fun acc c => acc * base + digitVal c) 0)

/-- JavaScript `parseInt(s)` with no radix argument: strip leading
whitespace, optional sign, `0x`/`0X` switches to base 16, then the
longest digit prefix; `none` models `NaN`. -/
def jsParseInt (s : String) : Option Int :=
  let l := s.toList.dropWhile jsWhitespaceChar
  let sign : Int := match l with
    | c :: _ => if c = '-' then -1 else 1
    | [] => 1
  let l2 : List Char := match l with
    | c :: rest => if c = '-' || c = '+' then rest else l
    | [] => []
  match l2 with
  | c0 :: c1 :: rest =>
    if c0 = '0' && (c1 = 'x' || c1 = 'X') then
      (parseDigits isHexDigit 16 rest).map (fun n => sign * (n : Int))
    else (parseDigits isDecDigit 10 l2).map (fun n => sign * (n : Int))
  | _ => (parseDigits isDecDigit 10 l2).map (fun n => sign * (n : Int))

/-- JavaScript `x || 1` on a number that may be `NaN` (`none`): `NaN`
and `0` are falsy, every other number is returned unchanged. -/
def numOr1 : Option Int → Int
  | none => 1
  | some n => if n = 0 then 1 else n

/-- The endpoint id passed to `deployStack` by `run`:
`endpointId: parseInt(endpointId) || 1`. -/
def endpointIdOf (s : String) : Int := numOr1 (jsParseInt s)

/-! ## The reconciler `deployStack`

`deployStack` performs a sequence of remote calls whose branching depends
only on the call results; it is modelled as a pure function from its
arguments and an `Oracle` of remote outcomes to the list of issued calls
(the trace) and the final outcome.  `login` happens before the guarded
`try` block; `logout` is the `finally` clause.  Per `api.ts`, `logout`
only clears the client's authorization header (the HTTP call is
commented out), so it has no failure mode of its own. -/

/-- `StackData` from `api.ts`; `Env` may be absent in the remote answer
(the source guards `if (!existingStack.Env)`). -/
structure StackData where
  Id : Int
  Name : String
  EndpointId : Int
  Env : Option EnvVariables
deriving DecidableEq, Repr

/-- The remote calls `deployStack` can issue, with their payloads. -/
inductive DeployEvent where
  | login
  | getStacks
  | updateStack (id : Int) (endpointId : Int) (env : Option EnvVariables)
      (stackFileContent : Option String) (prune : Bool) (pullImage : Bool)
  | createStack (type : Nat) (endpointId : Int) (name : String)
      (stackFileContent : String) (swarmID : Option String) (Env : Option EnvVariables)
  | logout
deriving DecidableEq, Repr

/-- How a run of `deployStack` can fail. -/
inductive DeployError where
  | apiError
  | missingDefinition
deriving DecidableEq, Repr

/-- Outcomes of the external calls: whether `login` succeeds, the answer
of `getStacks` (or a transport error), and whether the update/create
calls succeed. -/
structure Oracle where
  loginOk : Bool
  stacksResult : Except Unit (List StackData)
  updateOk : Bool
  createOk : Bool

/-- `deployStack` from `deployStack.ts` (lines 98-190), as a trace of
issued calls plus the outcome.  `stackDefinitionToDeploy` is the result
of `generateNewStackDefinition` (`none` models `undefined`); note the
source tests it with JavaScript truthiness, so `""` behaves like
`undefined`. -/
def deployStack (swarmId : Option String) (endpointId : Int) (stackName : String)
    (stackDefinitionToDeploy : Option String) (envVariables : Option EnvVariables)
    (pruneStack pullImage : Option Bool) (o : Oracle) :
    List DeployEvent × Except DeployError Unit :=
  if o.loginOk then
    match o.stacksResult with
    | .error _ => ([.login, .getStacks, .logout], .error .apiError)
    | .ok allStacks =>
      match allStacks.find? (fun s => s.Name == stackName && s.EndpointId == endpointId) with
      | some existingStack =>
        let env : Option EnvVariables :=
          match envVariables with
          | some upd => some (mergeEnvVariables (existingStack.Env.getD []) upd)
          | none => existingStack.Env
        let ev := DeployEvent.updateStack existingStack.Id existingStack.EndpointId env
          stackDefinitionToDeploy (pruneStack.getD false) (pullImage.getD false)
        ([.login, .getStacks, ev, .logout],
          if o.updateOk then .ok () else .error .apiError)
      | none =>
        if strTruthy stackDefinitionToDeploy then
          let ev := DeployEvent.createStack (if strTruthy swarmId then 1 else 2)
            endpointId stackName (stackDefinitionToDeploy.getD "")
            (if strTruthy swarmId then swarmId else none) envVariables
          ([.login, .getStacks, ev, .logout],
            if o.createOk then .ok () else .error .apiError)
        else ([.login, .getStacks, .logout], .error .missingDefinition)
  else ([.login], .error .apiError)

/-- Is the event a create-stack call? -/
def isCreateEvent : DeployEvent → Bool
  | .createStack _ _ _ _ _ _ => true
  | _ => false

/-- Is the event a logout? -/
def isLogoutEvent : DeployEvent → Bool
  | .logout => true
  | _ => false

/-- Does the trace contain an update call for the given stack id and
endpoint? -/
def hasUpdateFor (events : List DeployEvent) (id endpointId : Int) : Bool :=
  events.any fun e =>
    match e with
    | .updateStack i ei _ _ _ _ => i == id && ei == endpointId
    | _ => false

/-! ## Definitions written from the specification's words

These are deliberately spec-side restatements, used only on the
specification side of refinement claims; the operational definitions
above are the code-side. -/

/-- Spec-side line parse (§4.1): `NAME` is the substring before the
first `=`, `VALUE` the remainder, both trimmed; a line with no `=`
parses to `{name: line, value: ""}`. -/
def specEnvLine (line : List Char) : EnvVariable :=
  match line.findIdx? (fun c => c = '=') with
  | none => ⟨⟨jsTrimList line⟩, ""⟩
  | some i => ⟨⟨jsTrimList (line.take i)⟩, ⟨jsTrimList (line.drop (i + 1))⟩⟩

/-- Does the sequence contain an entry with this name? -/
def hasName (l : EnvVariables) (k : String) : Bool := l.any (fun v => v.name == k)

/-- Value of the last entry with this name, if any. -/
def lastValueIn (l : EnvVariables) (k : String) : Option String :=
  (l.filterMap (fun v => if v.name == k then some v.value else none)).getLast?

/-- Keep only the first occurrence of each name, in order. -/
def firstOccurrences : EnvVariables → EnvVariables
  | [] => []
  | v :: t => v :: (firstOccurrences t).filter (fun w => !(w.name == v.name))

/-- Spec-side merge (§4.2 and C3): names present in `original` keep the
position of their first occurrence there, with value taken from the last
matching update when the name appears in `updates` (otherwise the
mapping value seeded from `original`, last occurrence winning); names
only in `updates` are appended afterwards in `updates` first-occurrence
order, each with its last update value. -/
def specMergeEnvVariables (original updates : EnvVariables) : EnvVariables :=
  (firstOccurrences original).map
    (fun v => ⟨v.name, ((lastValueIn updates v.name).getD
      ((lastValueIn original v.name).getD v.value))⟩)
  ++ ((firstOccurrences updates).filter (fun v => !hasName original v.name)).map
    (fun v => ⟨v.name, (lastValueIn updates v.name).getD v.value⟩)

/-! ## Theorems -/

/-- C10: if the image argument is the empty string (not only when it is
absent), `generateNewStackDefinition` skips the rewrite step entirely and
returns the rendered document unchanged. -/
theorem generateNewStackDefinition_empty_image_skips (doc : String) :
    generateNewStackDefinition doc (some "") = doc := by
  simp [generateNewStackDefinition, strTruthy]

/-- C5 (code bug): for the tagless image reference documented in
`action.yml` (`docker.pkg.github.com/username/repo/master`), the
repository-only string computed by `image.substring(0, image.indexOf(':'))`
is the empty string, not the whole reference, and the resulting rewrite
pattern corrupts any document with an `image:` line by splicing the
reference in front of the existing image. -/
theorem imageWithoutTag_tagless_is_empty :
    imageWithoutTag "docker.pkg.github.com/username/repo/master" = "" ∧
    applyImageRewrite "image: nginx" "docker.pkg.github.com/username/repo/master" =
      "image: docker.pkg.github.com/username/repo/masternginx" := by
  constructor <;> rfl

/-- C9 (counterexample): the endpoint-id string `"0"` parses to the
integer 0, yet the endpoint id passed to the deployment is 1 — so the
default is not taken exactly when the string is unset or unparsable. -/
theorem endpointIdOf_zero_counterexample :
    jsParseInt "0" = some 0 ∧ endpointIdOf "0" = 1 ∧ ¬ endpointIdOf "0" = 0 := by
  refine ⟨by rfl, by rfl, by decide⟩

/-- C9 (amended): the endpoint id passed to the deployment is the parsed
integer value of the endpoint-id string whenever that value is nonzero,
and it is 1 when the string is unset or unparsable (parses to `NaN`) or
parses to 0. -/
theorem endpointIdOf_amended (s : String) :
    (∀ n : Int, jsParseInt s = some n → ¬ n = 0 → endpointIdOf s = n) ∧
    (jsParseInt s = none ∨ jsParseInt s = some 0 → endpointIdOf s = 1) := by
  constructor
  · intro n hn hnz
    simp [endpointIdOf, hn, numOr1, hnz]
  · intro h
    rcases h with h | h <;> simp [endpointIdOf, h, numOr1]

/-- C9 witness: instantiating the amended theorem at `"42"` and `""`. -/
theorem endpointIdOf_amended_witness :
    endpointIdOf "42" = 42 ∧ endpointIdOf "" = 1 :=
  ⟨(endpointIdOf_amended "42").1 42 (by rfl) (by decide),
   (endpointIdOf_amended "").2 (Or.inl (by rfl))⟩

/-- C1: whenever some fetched remote stack has the target name and
endpoint id, `deployStack` issues an update call for the first such stack
and never issues a create call — even when a rendered stack definition
document was supplied. -/
theorem deployStack_existing_always_update
    (swarmId : Option String) (endpointId : Int) (stackName : String)
    (doc : Option String) (envV : Option EnvVariables) (pr pl : Option Bool)
    (o : Oracle) (remoteStacks : List StackData) (s : StackData)
    (hlogin : o.loginOk = true)
    (hstacks : o.stacksResult = .ok remoteStacks)
    (hfind : remoteStacks.find? (fun t => t.Name == stackName && t.EndpointId == endpointId) = some s) :
    hasUpdateFor (deployStack swarmId endpointId stackName doc envV pr pl o).1
        s.Id s.EndpointId = true ∧
    (deployStack swarmId endpointId stackName doc envV pr pl o).1.all
        (fun e => !isCreateEvent e) = true := by
  simp [deployStack, hlogin, hstacks, hfind, hasUpdateFor, isCreateEvent]

/-- C1 witness: a concrete run with one matching remote stack. -/
theorem deployStack_existing_always_update_witness :
    hasUpdateFor (deployStack none 1 "web" (some "doc") none none none
        ⟨true, .ok [⟨7, "web", 1, none⟩], true, true⟩).1 7 1 = true ∧
    (deployStack none 1 "web" (some "doc") none none none
        ⟨true, .ok [⟨7, "web", 1, none⟩], true, true⟩).1.all
        (fun e => !isCreateEvent e) = true :=
  deployStack_existing_always_update none 1 "web" (some "doc") none none none
    ⟨true, .ok [⟨7, "web", 1, none⟩], true, true⟩ [⟨7, "web", 1, none⟩]
    ⟨7, "web", 1, none⟩ (by rfl) (by rfl) (by rfl)

/-- C2: when no fetched remote stack matches the target name and endpoint
id and no (truthy) stack definition document was produced, the run fails
with the missing-definition error and no create-stack call is issued. -/
theorem deployStack_missing_definition_error
    (swarmId : Option String) (endpointId : Int) (stackName : String)
    (doc : Option String) (envV : Option EnvVariables) (pr pl : Option Bool)
    (o : Oracle) (remoteStacks : List StackData)
    (hlogin : o.loginOk = true)
    (hstacks : o.stacksResult = .ok remoteStacks)
    (hfind : remoteStacks.find? (fun t => t.Name == stackName && t.EndpointId == endpointId) = none)
    (hdoc : strTruthy doc = false) :
    (deployStack swarmId endpointId stackName doc envV pr pl o).2 =
        .error .missingDefinition ∧
    (deployStack swarmId endpointId stackName doc envV pr pl o).1.all
        (fun e => !isCreateEvent e) = true := by
  simp [deployStack, hlogin, hstacks, hfind, hdoc, isCreateEvent]

/-- C2 witness: a concrete run with no matching stack and no document. -/
theorem deployStack_missing_definition_error_witness :
    (deployStack none 1 "web" none none none none
        ⟨true, .ok [⟨7, "db", 1, none⟩], true, true⟩).2 =
        .error .missingDefinition ∧
    (deployStack none 1 "web" none none none none
        ⟨true, .ok [⟨7, "db", 1, none⟩], true, true⟩).1.all
        (fun e => !isCreateEvent e) = true :=
  deployStack_missing_definition_error none 1 "web" none none none none
    ⟨true, .ok [⟨7, "db", 1, none⟩], true, true⟩ [⟨7, "db", 1, none⟩]
    (by rfl) (by rfl) (by rfl) (by rfl)

/-- C6: once the login has succeeded (so the stack lookup begins),
`deployStack` emits exactly one logout, as the last call of the run, on
the success path and on every failure path (list error, update error,
create error, missing document); per `api.ts`, `logout` only clears the
authorization header and has no failure mode of its own. -/
theorem deployStack_logout_exactly_once
    (swarmId : Option String) (endpointId : Int) (stackName : String)
    (doc : Option String) (envV : Option EnvVariables) (pr pl : Option Bool)
    (o : Oracle) (hlogin : o.loginOk = true) :
    (deployStack swarmId endpointId stackName doc envV pr pl o).1.countP
        isLogoutEvent = 1 ∧
    (deployStack swarmId endpointId stackName doc envV pr pl o).1.getLast? =
        some .logout := by
  rcases o with ⟨lo, sr, uo, co⟩
  simp only at hlogin
  subst hlogin
  rcases sr with e | remoteStacks
  · simp [deployStack, isLogoutEvent]
  · rcases hf : remoteStacks.find?
        (fun s => s.Name == stackName && s.EndpointId == endpointId) with _ | s
    · rcases hd : strTruthy doc with _ | _
      · simp [deployStack, hf, hd, isLogoutEvent]
      · simp [deployStack, hf, hd, isLogoutEvent]
    · simp [deployStack, hf, isLogoutEvent]

/-- C6 witness: the logout count on a concrete failing run (missing
document) and a concrete successful update run. -/
theorem deployStack_logout_exactly_once_witness :
    (deployStack none 1 "web" none none none none
        ⟨true, .ok [], true, true⟩).1.countP isLogoutEvent = 1 ∧
    (deployStack none 1 "web" none none none none
        ⟨true, .ok [], true, true⟩).1.getLast? = some .logout :=
  deployStack_logout_exactly_once none 1 "web" none none none none
    ⟨true, .ok [], true, true⟩ (by rfl)

/-- Seeding an insertion-ordered map with entries whose names are fresh
and pairwise distinct appends them unchanged. -/
theorem foldl_mapSet_fresh (l : EnvVariables) :
    ∀ m : EnvVariables, (∀ v ∈ l, hasName m v.name = false) →
    (l.map EnvVariable.name).Nodup →
    l.foldl (fun m v => mapSet m v.name v.value) m = m ++ l := by
  induction l with
  | nil => intro m _ _; simp
  | cons v t ih =>
    intro m hfresh hnodup
    have hv : hasName m v.name = false := hfresh v (by simp)
    have hstep : mapSet m v.name v.value = m ++ [v] := by
      have : (m.any fun p => p.name == v.name) = false := hv
      simp [mapSet, this]
    simp only [List.foldl_cons, hstep]
    have hnodup2 : (v.name :: t.map EnvVariable.name).Nodup := by simpa using hnodup
    have hnames : v.name ∉ t.map EnvVariable.name := (List.nodup_cons.mp hnodup2).1
    have := ih (m ++ [v]) ?_ ?_
    · simpa using this
    · intro w hw
      have h1 : hasName m w.name = false := hfresh w (by simp [hw])
      have h2 : ¬ v.name = w.name := by
        intro h
        exact hnames (h ▸ List.mem_map_of_mem EnvVariable.name hw)
      simp only [hasName, List.any_append, List.any_cons, List.any_nil] at h1 ⊢
      simp [h1, h2]
    · exact (List.nodup_cons.mp hnodup2).2

/-- C8 (counterexample): when `original` repeats a name, merging with an
empty update set does not return `original` unchanged — the map seeding
collapses duplicate names (first position, last value). -/
theorem mergeEnvVariables_empty_counterexample :
    mergeEnvVariables [⟨"A", "1"⟩, ⟨"A", "2"⟩] [] = [⟨"A", "2"⟩] ∧
    ¬ mergeEnvVariables [⟨"A", "1"⟩, ⟨"A", "2"⟩] [] = [⟨"A", "1"⟩, ⟨"A", "2"⟩] := by
  refine ⟨by rfl, by decide⟩

/-- C8 (amended): for every EnvVariable sequence whose names are pairwise
distinct (the data-model invariant of §3), merging with an empty update
sequence returns `original` unchanged, in values and in order. -/
theorem mergeEnvVariables_empty_of_nodup (original : EnvVariables)
    (h : (original.map EnvVariable.name).Nodup) :
    mergeEnvVariables original [] = original := by
  have := foldl_mapSet_fresh original [] (by intro v _; rfl) h
  simpa [mergeEnvVariables] using this

/-- C8 witness: the amended theorem applied to a concrete duplicate-free
sequence. -/
theorem mergeEnvVariables_empty_of_nodup_witness :
    mergeEnvVariables [⟨"A", "1"⟩, ⟨"B", "2"⟩] [] = [⟨"A", "1"⟩, ⟨"B", "2"⟩] :=
  mergeEnvVariables_empty_of_nodup [⟨"A", "1"⟩, ⟨"B", "2"⟩] (by decide)

/-- `splitOnChar` never returns the empty list of parts. -/
theorem splitOnChar_ne_nil (sep : Char) (s : List Char) : splitOnChar sep s ≠ [] := by
  induction s with
  | nil => simp [splitOnChar]
  | cons c rest ih =>
    simp only [splitOnChar]
    rcases h : splitOnChar sep rest with _ | ⟨h1, t⟩
    · exact absurd h ih
    · by_cases hc : c = sep <;> simp [hc]

/-- `joinSep` is a left inverse of `splitOnChar`. -/
theorem joinSep_splitOnChar (sep : Char) (s : List Char) :
    joinSep sep (splitOnChar sep s) = s := by
  induction s with
  | nil => rfl
  | cons c rest ih =>
    simp only [splitOnChar]
    rcases h : splitOnChar sep rest with _ | ⟨h1, t⟩
    · exact absurd h (splitOnChar_ne_nil sep rest)
    · by_cases hc : c = sep
      · subst hc
        simp only [if_pos rfl]
        rw [h] at ih
        cases t with
        | nil => simpa [joinSep] using ih
        | cons y t' => simpa [joinSep] using ih
      · simp only [if_neg hc]
        rw [h] at ih
        cases t with
        | nil => simpa [joinSep] using ih
        | cons y t' => simpa [joinSep, List.cons_append] using ih

/-- When the separator does not occur, `splitOnChar` returns one part. -/
theorem splitOnChar_of_no_sep (sep : Char) (s : List Char)
    (h : s.findIdx? (fun c => c = sep) = none) : splitOnChar sep s = [s] := by
  induction s with
  | nil => rfl
  | cons c rest ih =>
    rw [List.findIdx?_cons, List.findIdx?_succ] at h
    by_cases hc : c = sep
    · rw [if_pos (by simp [hc])] at h
      exact absurd h (by simp)
    · rw [if_neg (by simp [hc])] at h
      have h2 : rest.findIdx? (fun c => c = sep) = none := by simpa using h
      simp only [splitOnChar, if_neg hc, ih h2]

/-- `splitOnChar` splits at the first occurrence of the separator. -/
theorem splitOnChar_of_first_sep (sep : Char) (s : List Char) :
    ∀ i : Nat, s.findIdx? (fun c => c = sep) = some i →
    splitOnChar sep s = s.take i :: splitOnChar sep (s.drop (i + 1)) := by
  induction s with
  | nil => intro i h; simp [List.findIdx?_nil] at h
  | cons c rest ih =>
    intro i h
    rw [List.findIdx?_cons, List.findIdx?_succ] at h
    by_cases hc : c = sep
    · rw [if_pos (by simp [hc])] at h
      have hi : 0 = i := Option.some_inj.mp h
      subst hi
      subst hc
      simp [splitOnChar]
    · rw [if_neg (by simp [hc])] at h
      have h2 : ∃ j, rest.findIdx? (fun c => c = sep) = some j ∧ j + 1 = i := by
        simpa using h
      obtain ⟨j, hj, hij⟩ := h2
      subst hij
      simp only [splitOnChar, if_neg hc, ih j hj, List.take_succ_cons,
        List.drop_succ_cons]

/-- The per-line parse of the source agrees with the spec's description:
name is the trimmed text before the first `=`, value the trimmed
remainder, and a line without `=` gets an empty value. -/
theorem parseEnvLine_eq_specEnvLine (line : List Char) :
    parseEnvLine line = specEnvLine line := by
  rcases h : line.findIdx? (fun c => c = '=') with _ | i
  · rw [specEnvLine, h]
    rw [parseEnvLine, splitOnChar_of_no_sep '=' line h]
    rfl
  · rw [specEnvLine, h]
    rw [parseEnvLine, splitOnChar_of_first_sep '=' line i h]
    simp only [List.headD_cons, List.tail_cons, joinSep_splitOnChar]

/-- C7: `parseEnvVariables` first normalises escaped newlines and trims,
then keeps exactly the lines that are non-blank after trimming, in input
order and with duplicates kept, and maps each such line to the entry the
spec describes: the trimmed text before the first `=` as name and the
trimmed remainder (which may contain further `=`) as value, with a line
lacking `=` parsing to name = trimmed line, value = "" and no error. -/
theorem parseEnvVariables_spec (s : String) :
    parseEnvVariables s =
      ((splitOnChar '\n' (jsTrimList (replaceEscapedNewlines s.toList))).filter
        (fun line => jsTrimList line ≠ [])).map specEnvLine := by
  have h : parseEnvLine = specEnvLine := funext parseEnvLine_eq_specEnvLine
  rw [parseEnvVariables, h]

/-! ### The merge refinement (C3) -/

/-- `getLast?` of a cons in `getD` form. -/
theorem getLast?_cons_getD {α : Type} : ∀ (xs : List α) (a : α),
    (a :: xs).getLast? = some (xs.getLast?.getD a)
  | [], _ => rfl
  | b :: l, a => by
    rw [List.getLast?_cons_cons, getLast?_cons_getD l b]
    rfl

/-- The last value for a name in a cons. -/
theorem lastValueIn_cons (v : EnvVariable) (t : EnvVariables) (k : String) :
    lastValueIn (v :: t) k =
      if v.name == k then some ((lastValueIn t k).getD v.value)
      else lastValueIn t k := by
  by_cases h : v.name == k
  · have hf : (fun v' : EnvVariable => if v'.name == k then some v'.value else none) v =
        some v.value := by simp [h]
    rw [lastValueIn, @List.filterMap_cons_some EnvVariable String
        (fun v' : EnvVariable => if v'.name == k then some v'.value else none) v t v.value hf,
      getLast?_cons_getD, if_pos h]
    rfl
  · have hf : (fun v' : EnvVariable => if v'.name == k then some v'.value else none) v =
        none := by simp [h]
    rw [lastValueIn, @List.filterMap_cons_none EnvVariable String
        (fun v' : EnvVariable => if v'.name == k then some v'.value else none) v t hf,
      if_neg h]
    rfl

/-- `hasName` distributes over append. -/
theorem hasName_append (m₁ m₂ : EnvVariables) (k : String) :
    hasName (m₁ ++ m₂) k = (hasName m₁ k || hasName m₂ k) := by
  simp [hasName, List.any_append]

/-- Overwriting values in place preserves which names are present. -/
theorem hasName_map_overwrite (m : EnvVariables) (n : String) (w k : String) :
    hasName (m.map (fun p => if p.name == n then ⟨n, w⟩ else p)) k = hasName m k := by
  simp only [hasName, List.any_map]
  have hfun : ((fun v : EnvVariable => v.name == k) ∘
      (fun p : EnvVariable => if p.name == n then ⟨n, w⟩ else p)) =
      (fun v : EnvVariable => v.name == k) := by
    funext p
    by_cases hp : p.name == n
    · have hpn : p.name = n := by simpa using hp
      simp [Function.comp, hp, hpn]
    · simp [Function.comp, hp]
  rw [hfun]

/-- Whether a name occurs is not changed by keeping first occurrences. -/
theorem hasName_firstOccurrences (l : EnvVariables) (k : String) :
    hasName (firstOccurrences l) k = hasName l k := by
  induction l with
  | nil => rfl
  | cons v t ih =>
    by_cases hv : v.name == k
    · simp [firstOccurrences, hasName, List.any_cons, hv]
    · simp only [firstOccurrences, hasName, List.any_cons, hv, Bool.false_or,
        List.any_filter]
      have hfun : (fun w : EnvVariable => (!(w.name == v.name)) && (w.name == k)) =
          (fun w : EnvVariable => w.name == k) := by
        funext p
        by_cases hw : p.name == k
        · have hwk : p.name = k := by simpa using hw
          have hne : (p.name == v.name) = false := by
            rcases hx : p.name == v.name with _ | _
            · rfl
            · have : p.name = v.name := by simpa using hx
              exact absurd (by simp [← hwk, this] : (v.name == k) = true) hv
          simp [hw, hne]
        · simp [hw]
      rw [hfun]
      exact ih

/-- String `==` is symmetric. -/
theorem beqString_comm (a b : String) : (a == b) = (b == a) := by
  by_cases h : a = b
  · simp [h]
  · have h2 : ¬ b = a := fun x => h x.symm
    simp [h, h2]

/-- A member's name is present. -/
theorem hasName_of_mem {p : EnvVariable} {m : EnvVariables} (hp : p ∈ m) :
    hasName m p.name = true := by
  simp only [hasName, List.any_eq_true]
  exact ⟨p, hp, by simp⟩

/-- Characterisation of folding `mapSet` over a list of updates starting
from an arbitrary map state: existing entries keep their position and
get the last value their name receives in `l` (if any); names of `l` not
already present are appended in first-occurrence order, each with its
last value in `l`. -/
theorem foldl_mapSet_eq (l : EnvVariables) : ∀ m : EnvVariables,
    l.foldl (fun m v => mapSet m v.name v.value) m =
      m.map (fun p => ⟨p.name, (lastValueIn l p.name).getD p.value⟩)
      ++ ((firstOccurrences l).filter (fun w => !hasName m w.name)).map
          (fun w => ⟨w.name, (lastValueIn l w.name).getD w.value⟩) := by
  induction l with
  | nil =>
    intro m
    simp only [List.foldl_nil, firstOccurrences, List.filter_nil, List.map_nil,
      List.append_nil]
    have h : (fun p : EnvVariable =>
        (⟨p.name, (lastValueIn [] p.name).getD p.value⟩ : EnvVariable)) =
        fun p => p := by
      funext p
      rfl
    rw [h, List.map_id']
  | cons v t ih =>
    intro m
    rw [List.foldl_cons]
    by_cases hv : hasName m v.name
    · -- the name is already present: overwrite in place
      have hm : mapSet m v.name v.value =
          m.map (fun p => if p.name == v.name then ⟨v.name, v.value⟩ else p) := by
        have hv2 : (List.any m fun p => p.name == v.name) = true := hv
        rw [mapSet, if_pos hv2]
      rw [hm, ih]
      have hA1 : (m.map (fun p => if p.name == v.name then ⟨v.name, v.value⟩ else p)).map
            (fun p => (⟨p.name, (lastValueIn t p.name).getD p.value⟩ : EnvVariable)) =
          m.map (fun p => ⟨p.name, (lastValueIn (v :: t) p.name).getD p.value⟩) := by
        rw [List.map_map]
        apply List.map_congr_left
        intro p _
        by_cases hp : p.name == v.name
        · have hpn : p.name = v.name := by simpa using hp
          simp only [Function.comp, if_pos hp]
          rw [lastValueIn_cons]
          rw [if_pos (show (v.name == p.name) = true by simp [hpn])]
          simp [hpn]
        · have hpn : ¬ v.name = p.name := by
            intro h
            exact hp (by simp [h])
          simp only [Function.comp, if_neg hp]
          rw [lastValueIn_cons, if_neg (by simpa using hpn)]
      have hA2 : ((firstOccurrences t).filter (fun w =>
            !hasName (m.map (fun p => if p.name == v.name then ⟨v.name, v.value⟩ else p))
              w.name)) =
          (firstOccurrences t).filter (fun w => !hasName m w.name) := by
        apply List.filter_congr
        intro w _
        rw [hasName_map_overwrite]
      have hA3 : ((firstOccurrences t).filter (fun w => !hasName m w.name)).map
            (fun w => (⟨w.name, (lastValueIn t w.name).getD w.value⟩ : EnvVariable)) =
          ((firstOccurrences (v :: t)).filter (fun w => !hasName m w.name)).map
            (fun w => ⟨w.name, (lastValueIn (v :: t) w.name).getD w.value⟩) := by
        have hfo : firstOccurrences (v :: t) =
            v :: (firstOccurrences t).filter (fun w => !(w.name == v.name)) := rfl
        rw [hfo]
        rw [List.filter_cons_of_neg (by simp [hv])]
        rw [List.filter_filter]
        have hpred : (fun w : EnvVariable =>
            (!hasName m w.name) && (!(w.name == v.name))) =
            fun w => !hasName m w.name := by
          funext w
          by_cases hw : hasName m w.name
          · simp [hw]
          · have hwv : (w.name == v.name) = false := by
              rcases hx : w.name == v.name with _ | _
              · rfl
              · have : w.name = v.name := by simpa using hx
                rw [this] at hw
                exact absurd hv hw
            simp [hw, hwv]
        rw [hpred]
        apply List.map_congr_left
        intro w hw
        have hwm : hasName m w.name = false := by
          have := (List.mem_filter.mp hw).2
          simpa using this
        have hwv : ¬ v.name = w.name := by
          intro h
          rw [← h] at hwm
          rw [hv] at hwm
          cases hwm
        rw [lastValueIn_cons, if_neg (by simpa using hwv)]
      rw [hA1, hA2, hA3]
    · -- fresh name: append at the end
      have hv' : hasName m v.name = false := by
        rcases hx : hasName m v.name with _ | _
        · rfl
        · exact absurd hx hv
      have hm : mapSet m v.name v.value = m ++ [⟨v.name, v.value⟩] := by
        have hv2 : ¬ (List.any m fun p => p.name == v.name) = true := hv
        rw [mapSet, if_neg hv2]
      rw [hm, ih]
      rw [List.map_append]
      have hB1 : m.map (fun p =>
            (⟨p.name, (lastValueIn t p.name).getD p.value⟩ : EnvVariable)) =
          m.map (fun p => ⟨p.name, (lastValueIn (v :: t) p.name).getD p.value⟩) := by
        apply List.map_congr_left
        intro p hp
        have hpm : hasName m p.name = true := hasName_of_mem hp
        have hpv : ¬ v.name = p.name := by
          intro h
          rw [h] at hv'
          rw [hv'] at hpm
          cases hpm
        rw [lastValueIn_cons, if_neg (by simpa using hpv)]
      have hB2 : ([⟨v.name, v.value⟩] : EnvVariables).map (fun p =>
            (⟨p.name, (lastValueIn t p.name).getD p.value⟩ : EnvVariable)) =
          [⟨v.name, (lastValueIn (v :: t) v.name).getD v.value⟩] := by
        simp only [List.map_cons, List.map_nil]
        rw [lastValueIn_cons, if_pos (by simp)]
        rfl
      have hB3 : ((firstOccurrences t).filter (fun w =>
            !hasName (m ++ [⟨v.name, v.value⟩]) w.name)).map
            (fun w => (⟨w.name, (lastValueIn t w.name).getD w.value⟩ : EnvVariable)) =
          ((firstOccurrences t).filter (fun w =>
            !hasName m w.name && !(w.name == v.name))).map
            (fun w => ⟨w.name, (lastValueIn (v :: t) w.name).getD w.value⟩) := by
        have hpred : ∀ w ∈ firstOccurrences t,
            (!hasName (m ++ [⟨v.name, v.value⟩]) w.name) =
            ((!hasName m w.name) && !(w.name == v.name)) := by
          intro w _
          rw [hasName_append]
          have hone : hasName [(⟨v.name, v.value⟩ : EnvVariable)] w.name =
              (w.name == v.name) := by
            simp [hasName, beqString_comm]
          rw [hone, Bool.not_or]
        rw [List.filter_congr hpred]
        apply List.map_congr_left
        intro w hw
        have h2 := (List.mem_filter.mp hw).2
        simp only [Bool.and_eq_true, Bool.not_eq_true'] at h2
        have hvw : ¬ v.name = w.name := by
          intro h
          have := h2.2
          rw [h] at this
          simp at this
        rw [lastValueIn_cons, if_neg (by simpa using hvw)]
      rw [hB1, hB2, hB3]
      have hfo : firstOccurrences (v :: t) =
          v :: (firstOccurrences t).filter (fun w => !(w.name == v.name)) := rfl
      rw [hfo]
      rw [List.filter_cons_of_pos (by simp [hv'])]
      rw [List.filter_filter]
      rw [List.map_cons]
      rw [List.append_assoc, List.singleton_append]

/-- C3: `mergeEnvVariables` returns the sequence in which each name
already present in `original` keeps the position of its first occurrence
in `original` (with its value overwritten by `updates` when the name
also appears there, last update occurrence winning), and names appearing
only in `updates` are appended after all original names, in `updates`
first-occurrence order. -/
theorem mergeEnvVariables_spec (original updates : EnvVariables) :
    mergeEnvVariables original updates = specMergeEnvVariables original updates := by
  have hseed : original.foldl (fun m v => mapSet m v.name v.value) [] =
      (firstOccurrences original).map
        (fun w => ⟨w.name, (lastValueIn original w.name).getD w.value⟩) := by
    rw [foldl_mapSet_eq]
    have hfil : (firstOccurrences original).filter
        (fun w => !hasName [] w.name) = firstOccurrences original :=
      List.filter_eq_self.mpr (fun w _ => rfl)
    rw [hfil]
    rfl
  show updates.foldl (fun m v => mapSet m v.name v.value)
      (original.foldl (fun m v => mapSet m v.name v.value) []) =
      specMergeEnvVariables original updates
  rw [hseed, foldl_mapSet_eq, List.map_map]
  have hname : (fun w : EnvVariable => !hasName ((firstOccurrences original).map
      (fun w => (⟨w.name, (lastValueIn original w.name).getD w.value⟩ : EnvVariable)))
      w.name) = fun w : EnvVariable => !hasName original w.name := by
    funext w
    have h1 : hasName ((firstOccurrences original).map
        (fun w => (⟨w.name, (lastValueIn original w.name).getD w.value⟩ : EnvVariable)))
        w.name = hasName (firstOccurrences original) w.name := by
      simp only [hasName, List.any_map]
      rfl
    rw [h1, hasName_firstOccurrences]
  rw [hname]
  rfl

/-! ### The image rewrite: idempotence analysis (C4) -/

/-- The two quote characters, as an explicit disjunction. -/
theorem quoteChar_cases {c : Char} (h : quoteChar c = true) :
    c = '"' ∨ c = Char.ofNat 39 := by
  rw [quoteChar, Bool.or_eq_true] at h
  rcases h with h1 | h1
  · exact Or.inl (by simpa using h1)
  · exact Or.inr (by simpa using h1)

/-- A quote is not whitespace. -/
theorem quote_not_ws {c : Char} (h : quoteChar c = true) : jsWhitespaceChar c = false := by
  rcases quoteChar_cases h with h1 | h1 <;> subst h1 <;> decide

/-- A quote is not a line terminator. -/
theorem quote_not_lineterm {c : Char} (h : quoteChar c = true) :
    isLineTerminator c = false := by
  rcases quoteChar_cases h with h1 | h1 <;> subst h1 <;> decide

/-- `takeWhile` over an all-satisfying prefix followed by a failing head. -/
theorem takeWhile_all_append (p : Char → Bool) :
    ∀ (a : List Char) (d : Char) (b : List Char), (∀ c ∈ a, p c = true) →
      p d = false → (a ++ d :: b).takeWhile p = a
  | [], d, b, _, hd => by simp [List.takeWhile_cons, hd]
  | c :: a', d, b, ha, hd => by
    have hc : p c = true := ha c (by simp)
    simp only [List.cons_append, List.takeWhile_cons, hc, if_true]
    rw [takeWhile_all_append p a' d b (fun c hc => ha c (by simp [hc])) hd]

/-- `takeWhile` of an all-satisfying list. -/
theorem takeWhile_all (p : Char → Bool) :
    ∀ (a : List Char), (∀ c ∈ a, p c = true) → a.takeWhile p = a
  | [], _ => rfl
  | c :: a', ha => by
    have hc : p c = true := ha c (by simp)
    simp only [List.takeWhile_cons, hc, if_true]
    rw [takeWhile_all p a' (fun c hc => ha c (by simp [hc]))]

/-- A list starts with its own prefix. -/
theorem listStartsWith_append (a : List Char) :
    ∀ (b : List Char), listStartsWith (a ++ b) a = true := by
  induction a with
  | nil => intro b; cases b <;> rfl
  | cons c a' ih => intro b; simpa [listStartsWith] using ih b

/-- `tryFrom` commits to the first (largest) successful candidate. -/
theorem tryFrom_eq_of_some {α : Type} (f : Nat → Option α) (k : Nat) (r : α)
    (h : f k = some r) : tryFrom f k = some r := by
  cases k with
  | zero => simpa [tryFrom] using h
  | succ k' => simp [tryFrom, h]

/-- Unfolding: one scan step off a line start. -/
theorem scanRewriteFuel_cons_false (repo image : List Char) (fuel : Nat) (c : Char)
    (rest : List Char) :
    scanRewriteFuel repo image (fuel + 1) (c :: rest) false =
      c :: scanRewriteFuel repo image fuel rest (isLineTerminator c) := rfl

/-- Unfolding: one scan step at a line start, by the match result. -/
theorem scanRewriteFuel_cons_true (repo image : List Char) (fuel : Nat) (c : Char)
    (rest : List Char) :
    scanRewriteFuel repo image (fuel + 1) (c :: rest) true =
      (match matchAt repo (c :: rest) with
        | some (g1, g2, g3) =>
          if g1.length + repo.length + g2.length + g3.length = 0 then
            c :: scanRewriteFuel repo image fuel rest (isLineTerminator c)
          else
            g1 ++ image ++ g3 ++
              scanRewriteFuel repo image fuel
                ((c :: rest).drop (g1.length + repo.length + g2.length + g3.length))
                (((c :: rest).take
                  (g1.length + repo.length + g2.length + g3.length)).getLast?.any
                    isLineTerminator)
        | none => c :: scanRewriteFuel repo image fuel rest (isLineTerminator c)) := rfl

/-- With enough fuel the rewrite scan does not depend on the exact fuel. -/
theorem scanRewriteFuel_irrel (repo image : List Char) :
    ∀ (n : Nat) (s : List Char) (ls : Bool) (m : Nat),
      s.length ≤ n → s.length ≤ m →
      scanRewriteFuel repo image n s ls = scanRewriteFuel repo image m s ls := by
  intro n
  induction n with
  | zero =>
    intro s ls m hn _
    have hs : s = [] := List.length_eq_zero.mp (Nat.le_zero.mp hn)
    subst hs
    cases m <;> rfl
  | succ n' ih =>
    intro s ls m hn hm
    cases s with
    | nil => cases m <;> rfl
    | cons c rest =>
      cases m with
      | zero => exact absurd hm (by simp)
      | succ m' =>
        have hrest_n : rest.length ≤ n' := by
          simpa using Nat.succ_le_succ_iff.mp (by simpa using hn)
        have hrest_m : rest.length ≤ m' := by
          simpa using Nat.succ_le_succ_iff.mp (by simpa using hm)
        cases ls with
        | false =>
          rw [scanRewriteFuel_cons_false, scanRewriteFuel_cons_false]
          rw [ih rest (isLineTerminator c) m' hrest_n hrest_m]
        | true =>
          rw [scanRewriteFuel_cons_true, scanRewriteFuel_cons_true]
          rcases hmt : matchAt repo (c :: rest) with _ | ⟨g1, g2, g3⟩
          · simp only
            rw [ih rest (isLineTerminator c) m' hrest_n hrest_m]
          · simp only
            by_cases hcon : g1.length + repo.length + g2.length + g3.length = 0
            · rw [if_pos hcon, if_pos hcon]
              rw [ih rest (isLineTerminator c) m' hrest_n hrest_m]
            · simp only [if_neg hcon]
              have hd : ((c :: rest).drop
                  (g1.length + repo.length + g2.length + g3.length)).length ≤ n' := by
                simp only [List.length_drop]
                have : 1 ≤ g1.length + repo.length + g2.length + g3.length :=
                  Nat.one_le_iff_ne_zero.mpr hcon
                simp only [List.length_cons] at hn ⊢
                omega
              have hd2 : ((c :: rest).drop
                  (g1.length + repo.length + g2.length + g3.length)).length ≤ m' := by
                simp only [List.length_drop]
                have : 1 ≤ g1.length + repo.length + g2.length + g3.length :=
                  Nat.one_le_iff_ne_zero.mpr hcon
                simp only [List.length_cons] at hm ⊢
                omega
              rw [ih _ _ m' hd hd2]

/-- The first colon of `repo ++ ':' :: tag` is at index `repo.length`
when `repo` is colon-free. -/
theorem findIdx_colon_append (tag : List Char) :
    ∀ repo : List Char, (∀ c ∈ repo, ¬ c = ':') →
    (repo ++ ':' :: tag).findIdx? (fun c => c = ':') = some repo.length := by
  intro repo
  induction repo with
  | nil =>
    intro _
    rw [List.nil_append, List.findIdx?_cons]
    simp
  | cons c repo' ih =>
    intro hnc
    have hc : ¬ c = ':' := hnc c (by simp)
    rw [List.cons_append, List.findIdx?_cons, List.findIdx?_succ]
    rw [if_neg (by simp [hc])]
    rw [ih (fun d hd => hnc d (by simp [hd]))]
    simp

/-- The repository-only computation on a tagged reference with a
colon-free repository returns exactly the repository. -/
theorem jsSubstring_repo (repo tag : List Char) (hnc : ∀ c ∈ repo, ¬ c = ':') :
    jsSubstring (repo ++ ':' :: tag) 0 (jsIndexOfColon (repo ++ ':' :: tag)) = repo := by
  rw [jsIndexOfColon, findIdx_colon_append tag repo hnc]
  rw [jsSubstring]
  have hlen : ((repo ++ ':' :: tag).length : Int) =
      (repo.length : Int) + 1 + (tag.length : Int) := by
    simp [List.length_append]
    omega
  have ha : (max 0 (min (0 : Int) ((repo ++ ':' :: tag).length : Int))).toNat = 0 := by
    rw [hlen]
    omega
  have hb : (max 0 (min ((repo.length : Nat) : Int)
      ((repo ++ ':' :: tag).length : Int))).toNat = repo.length := by
    rw [hlen]
    omega
  simp only [ha, hb, Nat.zero_max, Nat.zero_min, List.drop_zero]
  exact List.take_left repo (':' :: tag)

/-- Evaluation of the `\s*` plus optional-quote plus repository stage on
a well-formed remainder. -/
theorem wsQuoteRepo_wellformed (repo ws2 qopt v : List Char) (r0 : Char) (rs : List Char)
    (hrepo : repo = r0 :: rs) (hr0ws : jsWhitespaceChar r0 = false)
    (hr0q : quoteChar r0 = false)
    (hws2 : ∀ c ∈ ws2, jsWhitespaceChar c = true)
    (hqopt : qopt = [] ∨ ∃ q0, qopt = [q0] ∧ quoteChar q0 = true) :
    wsQuoteRepo repo (ws2 ++ (qopt ++ (repo ++ v))) = some (ws2 ++ qopt, v) := by
  rcases hqopt with hq | ⟨q0, hq, hq0⟩
  · subst hq
    subst hrepo
    simp only [List.nil_append, List.append_nil, List.cons_append]
    have hws : wsRunLen (ws2 ++ r0 :: (rs ++ v)) = ws2.length := by
      show (List.takeWhile jsWhitespaceChar (ws2 ++ r0 :: (rs ++ v))).length = ws2.length
      rw [takeWhile_all_append jsWhitespaceChar ws2 r0 (rs ++ v) hws2 hr0ws]
    rw [wsQuoteRepo, hws]
    apply tryFrom_eq_of_some
    have hdrop : (ws2 ++ r0 :: (rs ++ v)).drop ws2.length = r0 :: (rs ++ v) :=
      List.drop_left ws2 (r0 :: (rs ++ v))
    have htake : (ws2 ++ r0 :: (rs ++ v)).take ws2.length = ws2 :=
      List.take_left ws2 (r0 :: (rs ++ v))
    simp only [hdrop, htake]
    have hqr : quoteAndRepo (r0 :: rs) (r0 :: (rs ++ v)) = some [] := by
      rw [quoteAndRepo]
      rw [if_neg (by simp [hr0q])]
      rw [if_pos (show listStartsWith (r0 :: (rs ++ v)) (r0 :: rs) = true from
        listStartsWith_append (r0 :: rs) v)]
    rw [hqr]
    have hdrop2 : (r0 :: (rs ++ v)).drop (List.length ([] : List Char) + (r0 :: rs).length) =
        v := by
      simp only [List.length_nil, List.length_cons, Nat.zero_add]
      rw [List.drop_succ_cons]
      exact List.drop_left rs v
    simp only [hdrop2]
    simp
  · subst hq
    have hq0ws : jsWhitespaceChar q0 = false := quote_not_ws hq0
    simp only [List.cons_append, List.nil_append]
    have hws : wsRunLen (ws2 ++ q0 :: (repo ++ v)) = ws2.length := by
      show (List.takeWhile jsWhitespaceChar (ws2 ++ q0 :: (repo ++ v))).length = ws2.length
      rw [takeWhile_all_append jsWhitespaceChar ws2 q0 (repo ++ v) hws2 hq0ws]
    rw [wsQuoteRepo, hws]
    apply tryFrom_eq_of_some
    have hdrop : (ws2 ++ q0 :: (repo ++ v)).drop ws2.length = q0 :: (repo ++ v) :=
      List.drop_left ws2 (q0 :: (repo ++ v))
    have htake : (ws2 ++ q0 :: (repo ++ v)).take ws2.length = ws2 :=
      List.take_left ws2 (q0 :: (repo ++ v))
    simp only [hdrop, htake]
    have hqr : quoteAndRepo repo (q0 :: (repo ++ v)) = some [q0] := by
      rw [quoteAndRepo]
      rw [if_pos (by simp [hq0, listStartsWith_append])]
    rw [hqr]
    have hdrop2 : (q0 :: (repo ++ v)).drop ([q0].length + repo.length) = v := by
      simp only [List.length_cons, List.length_nil, Nat.zero_add]
      rw [Nat.add_comm 1 repo.length, List.drop_succ_cons]
      exact List.drop_left repo v
    simp only [hdrop2]

/-- Evaluation of the full pattern on a well-formed image declaration:
group 1 collects the whitespace runs, the literal and the optional
opening quote; groups 2 and 3 are whatever `tagAndQuote` yields on the
remainder after the repository. -/
theorem matchAt_wellformed (repo ws1 ws2 qopt v : List Char) (r0 : Char) (rs : List Char)
    (hrepo : repo = r0 :: rs) (hr0ws : jsWhitespaceChar r0 = false)
    (hr0q : quoteChar r0 = false)
    (hws1 : ∀ c ∈ ws1, jsWhitespaceChar c = true)
    (hws2 : ∀ c ∈ ws2, jsWhitespaceChar c = true)
    (hqopt : qopt = [] ∨ ∃ q0, qopt = [q0] ∧ quoteChar q0 = true) :
    matchAt repo (ws1 ++ (imageLit ++ (ws2 ++ (qopt ++ (repo ++ v))))) =
      some (ws1 ++ imageLit ++ (ws2 ++ qopt), (tagAndQuote v).1, (tagAndQuote v).2) := by
  have hws : wsRunLen (ws1 ++ (imageLit ++ (ws2 ++ (qopt ++ (repo ++ v))))) =
      ws1.length := by
    show (List.takeWhile jsWhitespaceChar
      (ws1 ++ 'i' :: (['m', 'a', 'g', 'e', ':'] ++
        (ws2 ++ (qopt ++ (repo ++ v)))))).length = ws1.length
    rw [takeWhile_all_append jsWhitespaceChar ws1 'i' _ hws1 (by decide)]
  rw [matchAt, hws]
  apply tryFrom_eq_of_some
  have hdrop : (ws1 ++ (imageLit ++ (ws2 ++ (qopt ++ (repo ++ v))))).drop ws1.length =
      imageLit ++ (ws2 ++ (qopt ++ (repo ++ v))) :=
    List.drop_left ws1 (imageLit ++ (ws2 ++ (qopt ++ (repo ++ v))))
  have htake : (ws1 ++ (imageLit ++ (ws2 ++ (qopt ++ (repo ++ v))))).take ws1.length =
      ws1 :=
    List.take_left ws1 (imageLit ++ (ws2 ++ (qopt ++ (repo ++ v))))
  simp only [hdrop, htake]
  rw [if_pos (listStartsWith_append imageLit (ws2 ++ (qopt ++ (repo ++ v))))]
  have hdropIL : (imageLit ++ (ws2 ++ (qopt ++ (repo ++ v)))).drop imageLit.length =
      ws2 ++ (qopt ++ (repo ++ v)) :=
    List.drop_left imageLit (ws2 ++ (qopt ++ (repo ++ v)))
  simp only [hdropIL]
  rw [wsQuoteRepo_wellformed repo ws2 qopt v r0 rs hrepo hr0ws hr0q hws2 hqopt]

/-- Evaluation of the trailing groups on a tag that ends at a quote. -/
theorem tagAndQuote_wellformed (told : List Char) (q' : Char) (rest : List Char)
    (htold : ∀ c ∈ told, quoteChar c = false) (hq' : quoteChar q' = true) :
    tagAndQuote (':' :: (told ++ (q' :: rest))) = (':' :: told, [q']) := by
  have hg2 : List.takeWhile (fun d => !quoteChar d) (told ++ (q' :: rest)) = told :=
    takeWhile_all_append _ told q' rest (fun c hc => by rw [htold c hc]; rfl)
      (by rw [hq']; rfl)
  show ((':' :: List.takeWhile (fun d => !quoteChar d) (told ++ (q' :: rest)),
    match (':' :: (told ++ (q' :: rest))).drop
        (':' :: List.takeWhile (fun d => !quoteChar d) (told ++ (q' :: rest))).length with
    | c :: _ => if quoteChar c then [c] else []
    | [] => []) : List Char × List Char) = (':' :: told, [q'])
  rw [hg2]
  simp only [List.length_cons, List.drop_succ_cons]
  rw [List.drop_left told (q' :: rest)]
  simp only [if_pos hq']

/-- One pass of the rewrite over a document that starts with a
well-formed, quote-terminated image declaration: the declaration is
rewritten to carry the full image reference, and the scan continues on
the remaining text off a line start. -/
theorem scanRewrite_wellformed_step (repo image ws1 ws2 qopt told rest : List Char)
    (q' : Char) (r0 : Char) (rs : List Char)
    (hrepo : repo = r0 :: rs) (hr0ws : jsWhitespaceChar r0 = false)
    (hr0q : quoteChar r0 = false)
    (hws1 : ∀ c ∈ ws1, jsWhitespaceChar c = true)
    (hws2 : ∀ c ∈ ws2, jsWhitespaceChar c = true)
    (hqopt : qopt = [] ∨ ∃ q0, qopt = [q0] ∧ quoteChar q0 = true)
    (htold : ∀ c ∈ told, quoteChar c = false)
    (hq' : quoteChar q' = true) :
    scanRewrite repo image
      (ws1 ++ (imageLit ++ (ws2 ++ (qopt ++ (repo ++ (':' :: (told ++ (q' :: rest))))))))
      true =
      ws1 ++ imageLit ++ (ws2 ++ qopt) ++ image ++ [q'] ++
        scanRewrite repo image rest false := by
  have hmt : matchAt repo
      (ws1 ++ (imageLit ++ (ws2 ++ (qopt ++ (repo ++ (':' :: (told ++ (q' :: rest)))))))) =
      some (ws1 ++ imageLit ++ (ws2 ++ qopt), ':' :: told, [q']) := by
    rw [matchAt_wellformed repo ws1 ws2 qopt (':' :: (told ++ (q' :: rest))) r0 rs
      hrepo hr0ws hr0q hws1 hws2 hqopt]
    rw [tagAndQuote_wellformed told q' rest htold hq']
  have hSP : ws1 ++ (imageLit ++ (ws2 ++ (qopt ++ (repo ++ (':' :: (told ++ (q' :: rest))))))) =
      (ws1 ++ (imageLit ++ (ws2 ++ (qopt ++ (repo ++ (':' :: told)))))) ++ (q' :: rest) := by
    simp [List.append_assoc]
  rcases hSc : ws1 ++ (imageLit ++ (ws2 ++ (qopt ++ (repo ++ (':' :: (told ++ (q' :: rest)))))))
    with _ | ⟨c, cs⟩
  · exfalso
    have h1 := congrArg List.length hSc
    simp [List.length_append] at h1
  · rw [scanRewrite]
    simp only [List.length_cons]
    rw [scanRewriteFuel_cons_true]
    have hmt2 : matchAt repo (c :: cs) =
        some (ws1 ++ imageLit ++ (ws2 ++ qopt), ':' :: told, [q']) := by
      rw [← hSc]
      exact hmt
    rw [hmt2]
    simp only
    have hcon : (ws1 ++ imageLit ++ (ws2 ++ qopt)).length + repo.length +
        (':' :: told).length + ([q'] : List Char).length =
        (ws1 ++ (imageLit ++ (ws2 ++ (qopt ++ (repo ++ (':' :: told)))))).length + 1 := by
      simp [List.length_append, List.length_cons]
      omega
    rw [if_neg (by rw [hcon]; simp)]
    rw [hcon]
    rw [← hSc, hSP]
    rw [List.take_append 1, List.drop_append 1]
    rw [List.take_succ_cons, List.take_zero, List.drop_succ_cons, List.drop_zero]
    rw [List.getLast?_concat]
    rw [show Option.any isLineTerminator (some q') = isLineTerminator q' from rfl]
    rw [quote_not_lineterm hq']
    have hfuel : scanRewriteFuel repo image cs.length rest false =
        scanRewrite repo image rest false := by
      have h1 := congrArg List.length hSc
      have h2 := congrArg List.length hSP
      rw [hSc] at h2
      simp only [List.length_append, List.length_cons] at h1 h2
      rw [scanRewrite]
      exact scanRewriteFuel_irrel repo image cs.length rest false rest.length
        (by omega) (by omega)
    rw [hfuel]

/-- C4 (counterexample): the image rewrite is not idempotent for every
document and image reference.  With image `a:b` (repository `a`) and the
document `image: aX`, the first application splices the reference inside
the token `aX` and the second then swallows the leftover as a tag, so
the results differ. -/
theorem applyImageRewrite_not_idempotent :
    applyImageRewrite "image: aX" "a:b" = "image: a:bX" ∧
    applyImageRewrite (applyImageRewrite "image: aX" "a:b") "a:b" = "image: a:b" ∧
    ¬ applyImageRewrite (applyImageRewrite "image: aX" "a:b") "a:b" =
      applyImageRewrite "image: aX" "a:b" := by
  refine ⟨by rfl, by rfl, by decide⟩

/-- C4 (amended): the image rewrite is idempotent on documents that
begin with a well-formed, quote-terminated image declaration
`<ws>image:<ws><quote?>repository:oldtag<quote>` whose remaining text
the rewrite leaves unchanged, provided the image reference is
`repository:tag` with a nonempty repository that starts with neither
whitespace nor a quote and contains no colon, and old and new tags are
quote-free.  (In general a second application can change the result, as
the counterexample shows.) -/
theorem applyImageRewrite_idempotent_wellformed
    (image doc : String) (repo tag ws1 ws2 qopt told rest : List Char)
    (q' : Char) (r0 : Char) (rs : List Char)
    (himg : image.toList = repo ++ (':' :: tag))
    (hdoc : doc.toList =
      ws1 ++ (imageLit ++ (ws2 ++ (qopt ++ (repo ++ (':' :: (told ++ (q' :: rest))))))))
    (hrepo : repo = r0 :: rs) (hr0ws : jsWhitespaceChar r0 = false)
    (hr0q : quoteChar r0 = false)
    (hnc : ∀ c ∈ repo, ¬ c = ':')
    (hws1 : ∀ c ∈ ws1, jsWhitespaceChar c = true)
    (hws2 : ∀ c ∈ ws2, jsWhitespaceChar c = true)
    (hqopt : qopt = [] ∨ ∃ q0, qopt = [q0] ∧ quoteChar q0 = true)
    (htold : ∀ c ∈ told, quoteChar c = false)
    (htag : ∀ c ∈ tag, quoteChar c = false)
    (hq' : quoteChar q' = true)
    (hrest : scanRewrite repo image.toList rest false = rest) :
    applyImageRewrite (applyImageRewrite doc image) image = applyImageRewrite doc image := by
  have hrepoT : (imageWithoutTag image).toList = repo := by
    show jsSubstring image.toList 0 (jsIndexOfColon image.toList) = repo
    rw [himg]
    exact jsSubstring_repo repo tag hnc
  have h1 : (applyImageRewrite doc image).toList =
      ws1 ++ imageLit ++ (ws2 ++ qopt) ++ image.toList ++ [q'] ++ rest := by
    show scanRewrite (imageWithoutTag image).toList image.toList doc.toList true = _
    rw [hrepoT, hdoc]
    rw [scanRewrite_wellformed_step repo image.toList ws1 ws2 qopt told rest q' r0 rs
      hrepo hr0ws hr0q hws1 hws2 hqopt htold hq']
    rw [hrest]
  have h1b : (applyImageRewrite doc image).toList =
      ws1 ++ (imageLit ++ (ws2 ++ (qopt ++ (repo ++ (':' :: (tag ++ (q' :: rest))))))) := by
    rw [h1, himg]
    simp [List.append_assoc]
  have h2 : (applyImageRewrite (applyImageRewrite doc image) image).toList =
      ws1 ++ imageLit ++ (ws2 ++ qopt) ++ image.toList ++ [q'] ++ rest := by
    show scanRewrite (imageWithoutTag image).toList image.toList
      (applyImageRewrite doc image).toList true = _
    rw [hrepoT, h1b]
    rw [scanRewrite_wellformed_step repo image.toList ws1 ws2 qopt tag rest q' r0 rs
      hrepo hr0ws hr0q hws1 hws2 hqopt htag hq']
    rw [hrest]
  exact String.ext (h2.trans h1.symm)

/-- C4 witness: the amended theorem applied to the concrete document
`image: "r:o"` followed by another line, with image `r:t`. -/
theorem applyImageRewrite_idempotent_wellformed_witness :
    applyImageRewrite (applyImageRewrite "image: \"r:o\"\nx" "r:t") "r:t" =
      applyImageRewrite "image: \"r:o\"\nx" "r:t" :=
  applyImageRewrite_idempotent_wellformed "r:t" "image: \"r:o\"\nx"
    ['r'] ['t'] [] [' '] ['"'] ['o'] ['\n', 'x'] '"' 'r' []
    (by rfl) (by rfl) (by rfl) (by decide) (by decide) (by decide)
    (by decide) (by decide) (Or.inr ⟨'"', rfl, by decide⟩) (by decide) (by decide)
    (by decide) (by rfl)

end PortainerDeploy
